import Mathlib

/-!
Shallow embedding of the WSI tiled-rendering core of this repository
(`src/core/wsi_tile_manager.py` together with the slide-load path of
`src/ui/wsi_view_widget.py`), used to verify the claims of the
natural-language specification against the code.

Modelling conventions:
* Python ints are `ℤ` (tile coordinates, pyramid levels, dict values).
* Decoded pixmaps are abstracted to `ℕ` identifiers; their pixel content is
  irrelevant to all cache and dispatch logic.
* Python floats (zoom thresholds, level downsamples, the `(n-1)/3.0` step of
  the stage table) are modelled as exact rationals `ℚ`, and Python 3 `round`
  as round-half-to-even on `ℚ`.
* `OrderedDict` is a list of key/value pairs kept least-recently-used first;
  `dict.get(k, d)` lookups with a default are modelled as resolved total
  functions.
* Every `with lock:` critical section of the source is one atomic step of
  the model, so a sequential trace of the model is an interleaving in which
  each locked block runs without interference (this is exactly what the
  locks guarantee for the cache, the in-flight set and the task queues).
-/

/-- Cache key `(tile_x, tile_y, level)` of one decoded tile. -/
abbrev TileKey : Type := ℤ × ℤ × ℤ

/-- Pyramid level of a tile key (its third component). -/
def keyLevel (k : TileKey) : ℤ := k.2.2

/-- One entry of the ordered cache dictionary: key and pixmap id. -/
abbrev CacheEntry : Type := TileKey × ℕ

/-- Value stored under a key, scanning least-recent entries first
(`OrderedDict` lookup; keys are unique in every reachable state). -/
def lookupList : List CacheEntry → TileKey → Option ℕ
  | [], _ => none
  | p :: rest, k => if p.1 = k then some p.2 else lookupList rest k

/-- Remove every entry carrying the given key (`del self.cache[key]`). -/
def removeKey : List CacheEntry → TileKey → List CacheEntry
  | [], _ => []
  | p :: rest, k => if p.1 = k then removeKey rest k else p :: removeKey rest k

/-- `OrderedDict.move_to_end(key)`: the key's entry moves behind all others;
a missing key leaves the dictionary unchanged. -/
def moveToEnd (l : List CacheEntry) (k : TileKey) : List CacheEntry :=
  match lookupList l k with
  | some v => removeKey l k ++ [(k, v)]
  | none => l

/-- Number of cached entries whose key lies on the given level. -/
def countLevel : List CacheEntry → ℤ → ℕ
  | [], _ => 0
  | p :: rest, lvl => (if keyLevel p.1 = lvl then 1 else 0) + countLevel rest lvl

/-- Drop the least-recently-used entry of the given level, if any: the
front-to-back scan of `TileCache._evict_oldest_tile_for_level`. -/
def removeFirstOfLevel : List CacheEntry → ℤ → List CacheEntry
  | [], _ => []
  | p :: rest, lvl => if keyLevel p.1 = lvl then rest else p :: removeFirstOfLevel rest lvl

/-- Resolved per-level quota lookup
`self.max_tiles_per_level.get(level, self.max_tiles_per_level[3])` for the
default dictionary `{0: 500, 1: 800, 2: 1200, 3: 2000}` built by
`TileCache.__init__`. -/
def defaultQuota : ℤ → ℤ := fun lvl =>
  if lvl = 0 then 500 else if lvl = 1 then 800 else if lvl = 2 then 1200 else 2000

/-- State of `TileCache` (`src/core/wsi_tile_manager.py`, lines 14-104):
the ordered dictionary of entries, the per-level quota dictionary (as its
resolved lookup function), the per-level entry counters
(`self.level_counts`, read through `.get(level, 0)`), and the eviction
counter. -/
structure TileCache where
  cache : List CacheEntry
  max_tiles_per_level : ℤ → ℤ
  level_counts : ℤ → ℤ
  total_evictions : ℕ

/-- `TileCache.__init__`: empty dictionary, zero counters. -/
def TileCache.init (quota : ℤ → ℤ) : TileCache :=
  { cache := [], max_tiles_per_level := quota, level_counts := fun _ => 0,
    total_evictions := 0 }

/-- `TileCache.get`: return the pixmap if present and move the entry to the
most-recently-used end; a miss leaves the cache unchanged. Returns the
looked-up value together with the updated cache state. -/
def TileCache.get (c : TileCache) (k : TileKey) : Option ℕ × TileCache :=
  match lookupList c.cache k with
  | some v => (some v, { c with cache := moveToEnd c.cache k })
  | none => (none, c)

/-- `TileCache._evict_oldest_tile_for_level`: scan the entries oldest-first
and delete the first one of the target level, decrementing that level's
counter; when the level has no entry the loop falls through with no change. -/
def TileCache.evict_oldest_tile_for_level (c : TileCache) (lvl : ℤ) : TileCache :=
  if c.cache.any (fun p => keyLevel p.1 = lvl) then
    { c with cache := removeFirstOfLevel c.cache lvl,
             level_counts := fun l => if l = lvl then c.level_counts l - 1 else c.level_counts l,
             total_evictions := c.total_evictions + 1 }
  else c

/-- Last two statements of `TileCache.put` for a new key: append the entry
most-recently-used and bump the level's counter. -/
def TileCache.insertNew (c : TileCache) (k : TileKey) (v : ℕ) : TileCache :=
  { c with cache := c.cache ++ [(k, v)],
           level_counts := fun l =>
             if l = keyLevel k then c.level_counts l + 1 else c.level_counts l }

/-- `TileCache.put`: an existing key only refreshes recency (the stored
pixmap is kept); a new key first evicts the oldest same-level entry when the
level's counter has reached the level's quota, then is appended
most-recently-used and counted (`insertNew`). -/
def TileCache.put (c : TileCache) (k : TileKey) (v : ℕ) : TileCache :=
  if (lookupList c.cache k).isSome then
    { c with cache := moveToEnd c.cache k }
  else if c.level_counts (keyLevel k) ≥ c.max_tiles_per_level (keyLevel k) then
    (c.evict_oldest_tile_for_level (keyLevel k)).insertNew k v
  else
    c.insertNew k v

/-- `TileCache.clear`: drop all entries and reset the per-level counters
(the eviction counter and the quota dictionary are kept). -/
def TileCache.clear (c : TileCache) : TileCache :=
  { c with cache := [], level_counts := fun _ => 0 }

/-- One cache operation of a `TileCache` trace: `put key pixmap` or
`get key`. -/
inductive CacheOp where
  | put (k : TileKey) (v : ℕ)
  | get (k : TileKey)

/-- Apply one trace operation to the cache. -/
def TileCache.applyOp (c : TileCache) : CacheOp → TileCache
  | CacheOp.put k v => c.put k v
  | CacheOp.get k => (c.get k).2

/-- Apply a whole trace of `put`/`get` operations, oldest first. -/
def TileCache.applyOps (c : TileCache) (ops : List CacheOp) : TileCache :=
  ops.foldl TileCache.applyOp c

/-- Floor of a rational, computed from its normalised numerator and
denominator by floor division (kept executable for the kernel). -/
def ratFloor (q : ℚ) : ℤ := q.num.fdiv (q.den : ℤ)

/-- Python 3 `round` on an exact rational: nearest integer, ties to the even
neighbour. With `f = ⌊q⌋`, the fractional part `q - f` is compared against
`1/2` through the integer `r2 = 2 * den * (q - f) = 2 * (num - f * den)`,
which keeps the function evaluable by the kernel. -/
def pyRound (q : ℚ) : ℤ :=
  let f := ratFloor q
  let r2 := 2 * (q.num - f * (q.den : ℤ))
  if r2 < (q.den : ℤ) then f
  else if (q.den : ℤ) < r2 then f + 1
  else if f % 2 = 0 then f else f + 1

/-- `WSITileManager._setup_level_stages` as a function of the slide's native
level count: the 4-stage table starts as `[0,0,0,0]` and is overwritten per
the level-count cases; counts of 4 or more use the evenly spaced
`step = (total_levels - 1) / 3.0` layout. The exact rationals `step`,
`step * 2` and `step * 3` are written `mkRat (total_levels - 1) 3` and so
on, which denote the same rational numbers as the quotients they model
(proved in `mkRat_step_eq` below) while staying kernel-evaluable. -/
def setup_level_stages (total_levels : ℕ) : List ℤ :=
  if total_levels = 1 then [0, 0, 0, 0]
  else if total_levels = 2 then [0, 0, 1, 1]
  else if total_levels = 3 then [0, 1, 2, 2]
  else if 4 ≤ total_levels then
    [0, pyRound (mkRat ((total_levels : ℤ) - 1) 3),
     pyRound (mkRat (((total_levels : ℤ) - 1) * 2) 3),
     min ((total_levels : ℤ) - 1) (pyRound (mkRat (((total_levels : ℤ) - 1) * 3) 3))]
  else [0, 0, 0, 0]

/-- The slide handle returned by `openslide.OpenSlide` at the interface
boundary: level count, per-level dimensions and per-level downsample
factors (floats modelled as exact rationals). `openslide` guarantees the
two lists describe the `level_count` native levels. -/
structure Slide where
  level_count : ℕ
  level_dimensions : List (ℕ × ℕ)
  level_downsamples : List ℚ

/-- `TileLoader.add_task`: a task already pending in this worker's private
queue is dropped, otherwise it is appended. -/
def TileLoader.add_task (tasks : List TileKey) (k : TileKey) : List TileKey :=
  if k ∈ tasks then tasks else tasks ++ [k]

/-- State of `WSITileManager`: the open slide handle (or `none` after
`close`), the tile cache, the in-flight set `self.loading_tiles` (a Python
set, modelled as a list with membership as the set relation), the 4-stage
level table, the workers' private task queues, and the round-robin cursor. -/
structure WSITileManager where
  slide : Option Slide
  cache : TileCache
  loading_tiles : List TileKey
  level_stages : List ℤ
  workers : List (List TileKey)
  current_worker_idx : ℕ

/-- `WSITileManager.__init__` on the success path: `openslide.OpenSlide`
returned a handle, the default cache is built, the stage table is computed,
and `num_workers` idle workers are started. The failure path of
`__init__` re-raises the open error and is modelled by
`WSITileManager.init` below returning `none`. -/
def WSITileManager.init_ok (s : Slide) (num_workers : ℕ) : WSITileManager :=
  { slide := some s, cache := TileCache.init defaultQuota, loading_tiles := [],
    level_stages := setup_level_stages s.level_count,
    workers := List.replicate num_workers [], current_worker_idx := 0 }

/-- `WSITileManager.__init__` including its failure path: the constructor
argument is the outcome of `openslide.OpenSlide(slide_path)` — `none` when
opening the slide raises, in which case the constructor re-raises and no
manager is produced. -/
def WSITileManager.init (openResult : Option Slide) (num_workers : ℕ) :
    Option WSITileManager :=
  match openResult with
  | none => none
  | some s => some (WSITileManager.init_ok s num_workers)

/-- `WSITileManager.get_stage_level`: pick one of the 4 stages from the
zoom level through the fixed threshold ladder `0.3 / 0.03 / 0.004`
(`mkRat 3 10`, `mkRat 3 100`, `mkRat 1 250`). -/
def WSITileManager.get_stage_level (m : WSITileManager) (zoom_level : ℚ) : ℤ :=
  if m.level_stages = [] then 0
  else if zoom_level ≥ mkRat 3 10 then m.level_stages.getD 0 0
  else if zoom_level ≥ mkRat 3 100 then m.level_stages.getD 1 0
  else if zoom_level ≥ mkRat 1 250 then m.level_stages.getD 2 0
  else m.level_stages.getD 3 0

/-- `WSITileManager.get_level_count`. -/
def WSITileManager.get_level_count (m : WSITileManager) : ℕ :=
  match m.slide with
  | some s => s.level_count
  | none => 0

/-- `WSITileManager.get_level_dimensions`: dimensions of an in-range level
of an open slide, `(0, 0)` otherwise. In-range reads go through the slide
handle's `level_dimensions` list (which `openslide` guarantees covers
every level below `level_count`). -/
def WSITileManager.get_level_dimensions (m : WSITileManager) (level : ℤ) : ℕ × ℕ :=
  match m.slide with
  | some s =>
    if 0 ≤ level ∧ level < (s.level_count : ℤ) then
      s.level_dimensions.getD level.toNat (0, 0)
    else (0, 0)
  | none => (0, 0)

/-- `WSITileManager.get_level_downsample`: downsample factor of an in-range
level of an open slide, `1.0` otherwise. -/
def WSITileManager.get_level_downsample (m : WSITileManager) (level : ℤ) : ℚ :=
  match m.slide with
  | some s =>
    if 0 ≤ level ∧ level < (s.level_count : ℤ) then
      s.level_downsamples.getD level.toNat 1
    else 1
  | none => 1

/-- Integer range `[s, e)`, the footprint loop bounds of Python
`range(s, e)`. -/
def intRange (s e : ℤ) : List ℤ :=
  (List.range (e - s).toNat).map (fun i => s + (i : ℤ))

/-- Tile keys enumerated by the double loop
`for ty in range(start_tile_y, end_tile_y): for tx in range(start_tile_x,
end_tile_x)` of `load_tiles_for_view`. The bounds themselves are computed
in the source from the viewport rectangle and the level's downsample with
a 4-tile buffer margin; the model takes the resulting integer bounds as
parameters. -/
def tileFootprint (sx ex sy ey lvl : ℤ) : List TileKey :=
  (intRange sy ey).flatMap (fun ty => (intRange sx ex).map (fun tx => (tx, ty, lvl)))

/-- Body of the `load_tiles_for_view` loop for one candidate key, threading
the manager state and the list of keys dispatched so far: a cache hit
(which refreshes that key's recency, since the membership test calls
`self.cache.get`) is skipped; a key already in the in-flight set is
skipped; otherwise the key is marked in-flight and dispatched round-robin.
The in-flight test-and-mark is one atomic step, exactly the
`with self.loading_lock:` block of the source. -/
def processKey (st : WSITileManager × List TileKey) (k : TileKey) :
    WSITileManager × List TileKey :=
  let m := st.1
  let r := m.cache.get k
  match r.1 with
  | some _ => ({ m with cache := r.2 }, st.2)
  | none =>
    if k ∈ m.loading_tiles then ({ m with cache := r.2 }, st.2)
    else
      let idx := m.current_worker_idx
      ({ m with cache := r.2,
                loading_tiles := m.loading_tiles ++ [k],
                workers := m.workers.set idx (TileLoader.add_task (m.workers.getD idx []) k),
                current_worker_idx := (m.current_worker_idx + 1) % m.workers.length },
       st.2 ++ [k])

/-- `WSITileManager.load_tiles_for_view`: no-op without a slide; otherwise
process every key of the footprint in loop order. Returns the new manager
state together with the keys dispatched to workers by this call
(`tiles_requested`, as the actual key list). -/
def WSITileManager.load_tiles_for_view (m : WSITileManager)
    (sx ex sy ey lvl : ℤ) : WSITileManager × List TileKey :=
  match m.slide with
  | none => (m, [])
  | some _ => (tileFootprint sx ex sy ey lvl).foldl processKey (m, [])

/-- `WSITileManager.get_tile`: look the key up in the cache (through
`TileCache.get`). Returns the lookup result and the manager state
afterwards. -/
def WSITileManager.get_tile (m : WSITileManager) (tile_x tile_y level : ℤ) :
    Option ℕ × WSITileManager :=
  let r := m.cache.get (tile_x, tile_y, level)
  (r.1, { m with cache := r.2 })

/-- `WSITileManager.on_tile_loaded`, the completion slot: discard the key
from the in-flight set, insert the pixmap into the cache (the
`tilesUpdated` signal carries no state and is not modelled). -/
def WSITileManager.on_tile_loaded (m : WSITileManager) (pixmap : ℕ) (k : TileKey) :
    WSITileManager :=
  { m with loading_tiles := m.loading_tiles.filter (fun x => x ≠ k),
           cache := m.cache.put k pixmap }

/-- One iteration of `TileLoader.run` on worker `i` whose decode fails
(`load_tile` catches the exception and returns `None`): the task is popped
and dropped, no `tileLoaded` signal is emitted, so neither the cache nor
the in-flight set changes. -/
def WSITileManager.worker_fail_step (m : WSITileManager) (i : ℕ) : WSITileManager :=
  match m.workers.getD i [] with
  | [] => m
  | _ :: rest => { m with workers := m.workers.set i rest }

/-- One iteration of `TileLoader.run` on worker `i` whose decode succeeds
with pixmap id `pixmap`: the task is popped and `tileLoaded` fires, which
the manager handles in `on_tile_loaded`. -/
def WSITileManager.worker_success_step (m : WSITileManager) (i : ℕ) (pixmap : ℕ) :
    WSITileManager :=
  match m.workers.getD i [] with
  | [] => m
  | k :: rest => ({ m with workers := m.workers.set i rest }).on_tile_loaded pixmap k

/-- `WSITileManager.close`: workers are stopped and joined (their remaining
queue contents become irrelevant and are left in place), the cache is
cleared, the in-flight set is cleared and the slide handle is released. -/
def WSITileManager.close (m : WSITileManager) : WSITileManager :=
  { m with cache := m.cache.clear, loading_tiles := [], slide := none }

/-- State of `WSIViewWidget` as far as slide loading is concerned: the
scene contents (abstract item ids), the displayed tile items and the tile
manager. -/
structure WSIViewWidget where
  scene_items : List ℕ
  tile_items : List (TileKey × ℕ)
  tile_manager : Option WSITileManager

/-- `WSIViewWidget.load_wsi`: inside the `try` block the old tile manager
is closed, the scene and the tile-item map are cleared, and only then is a
new `WSITileManager` constructed (with `tile_size=512, num_workers=4`). If
`openslide` fails — `openResult = none` — the constructor raises, the
`except` branch logs and returns `False`, leaving the mutations already
performed in place (the `tile_manager` attribute still references the old,
now closed, manager). On success the new manager is installed and `True`
is returned; the scene is repopulated later by `on_tiles_updated`. -/
def WSIViewWidget.load_wsi (w : WSIViewWidget) (openResult : Option Slide) :
    WSIViewWidget × Bool :=
  let cleared : WSIViewWidget :=
    { scene_items := [], tile_items := [],
      tile_manager := w.tile_manager.map WSITileManager.close }
  match openResult with
  | none => (cleared, false)
  | some s => ({ cleared with tile_manager := some (WSITileManager.init_ok s 4) }, true)

/-- Concrete single-level slide used as a witness input. -/
def slide1 : Slide :=
  { level_count := 1, level_dimensions := [(4096, 4096)], level_downsamples := [1] }

/-- Concrete 4-level slide with downsamples 1, 4, 16, 64 (the slide of the
spec's stage-mapping scenario). -/
def slide4 : Slide :=
  { level_count := 4,
    level_dimensions := [(40000, 40000), (10000, 10000), (2500, 2500), (625, 625)],
    level_downsamples := [1, 4, 16, 64] }

/-- Freshly constructed manager on the single-level slide. -/
def mgr1 : WSITileManager := WSITileManager.init_ok slide1 4

/-- Freshly constructed manager on the 4-level slide. -/
def mgr4 : WSITileManager := WSITileManager.init_ok slide4 4

/-- Number of occurrences of a key in a list of keys. -/
def countKey : List TileKey → TileKey → ℕ
  | [], _ => 0
  | a :: t, k => (if a = k then 1 else 0) + countKey t k

/-- Entry keys are pairwise distinct — the dictionary property every
reachable cache state enjoys. -/
def NodupKeys (l : List CacheEntry) : Prop := (l.map Prod.fst).Nodup

/-- Internal consistency of a cache state: distinct keys, per-level
counters agreeing with the actual entry counts, and every level within its
quota. -/
def CacheInv (c : TileCache) : Prop :=
  NodupKeys c.cache ∧
  (∀ lvl, c.level_counts lvl = (countLevel c.cache lvl : ℤ)) ∧
  (∀ lvl, (countLevel c.cache lvl : ℤ) ≤ c.max_tiles_per_level lvl)

/-- Insert a list of keys in order, all with pixmap id 0 (the pixmap value
is irrelevant to eviction behaviour). -/
def TileCache.putKeys (c : TileCache) (ks : List TileKey) : TileCache :=
  ks.foldl (fun a k => a.put k 0) c

/-- Invariant tying a state of the `load_tiles_for_view` loop (manager
state plus keys dispatched so far) back to the manager state `m0` at the
start of the call: dispatched keys are pairwise distinct, are marked
in-flight, were neither in-flight nor cached at the start, the in-flight
set only grows, and cache membership is untouched. -/
def DisInv (m0 : WSITileManager) (st : WSITileManager × List TileKey) : Prop :=
  st.2.Nodup ∧
  (∀ k ∈ st.2, k ∈ st.1.loading_tiles) ∧
  (∀ k ∈ m0.loading_tiles, k ∈ st.1.loading_tiles) ∧
  (∀ k, lookupList st.1.cache.cache k = lookupList m0.cache.cache k) ∧
  (∀ k ∈ st.2, k ∉ m0.loading_tiles ∧ lookupList m0.cache.cache k = none)

/-- Cache holding level-0 entries under keys `(0,0,0)` and `(1,0,0)`, in
that recency order. -/
def cacheTwo : TileCache :=
  ((TileCache.init defaultQuota).put (0, 0, 0) 1).put (1, 0, 0) 2

/-- Manager whose cache is `cacheTwo`. -/
def mgrC8 : WSITileManager := { mgr1 with cache := cacheTwo }

/-- Manager with one key already in flight. -/
def mgrInflight : WSITileManager := { mgr1 with loading_tiles := [(0, 0, 0)] }

/-- Widget displaying a scene item and a tile item over a live manager. -/
def wLive : WSIViewWidget :=
  { scene_items := [7], tile_items := [((0, 0, 0), 3)], tile_manager := some mgr4 }

/-! ### List-level lemmas about the ordered dictionary -/

theorem lookupList_eq_none_iff (l : List CacheEntry) (k : TileKey) :
    lookupList l k = none ↔ k ∉ l.map Prod.fst := by
  induction l with
  | nil => simp [lookupList]
  | cons p rest ih =>
    by_cases h : p.1 = k
    · simp [lookupList, h]
    · simp only [lookupList, if_neg h, List.map_cons, List.mem_cons, ih]
      constructor
      · intro hk hmem
        rcases hmem with e | hm
        · exact h e.symm
        · exact hk hm
      · intro hk hm
        exact hk (Or.inr hm)

theorem lookupList_mem_of_some {l : List CacheEntry} {k : TileKey} {v : ℕ}
    (h : lookupList l k = some v) : k ∈ l.map Prod.fst := by
  by_contra hm
  rw [(lookupList_eq_none_iff l k).mpr hm] at h
  exact Option.noConfusion h

theorem lookupList_append_of_none {l : List CacheEntry} {k : TileKey}
    (h : lookupList l k = none) (l2 : List CacheEntry) :
    lookupList (l ++ l2) k = lookupList l2 k := by
  induction l with
  | nil => rfl
  | cons p rest ih =>
    by_cases hp : p.1 = k
    · simp [lookupList, hp] at h
    · simp only [lookupList, if_neg hp] at h ⊢
      exact ih h

theorem lookupList_append_of_some {l : List CacheEntry} {k : TileKey} {v : ℕ}
    (h : lookupList l k = some v) (l2 : List CacheEntry) :
    lookupList (l ++ l2) k = some v := by
  induction l with
  | nil => simp [lookupList] at h
  | cons p rest ih =>
    by_cases hp : p.1 = k
    · simp only [lookupList, if_pos hp] at h ⊢
      exact h
    · simp only [lookupList, if_neg hp] at h ⊢
      exact ih h

theorem countLevel_append (l1 l2 : List CacheEntry) (lvl : ℤ) :
    countLevel (l1 ++ l2) lvl = countLevel l1 lvl + countLevel l2 lvl := by
  induction l1 with
  | nil => simp [countLevel]
  | cons p rest ih =>
    show (if keyLevel p.1 = lvl then 1 else 0) + countLevel (rest ++ l2) lvl =
      ((if keyLevel p.1 = lvl then 1 else 0) + countLevel rest lvl) + countLevel l2 lvl
    rw [ih]
    omega

theorem removeKey_sublist (l : List CacheEntry) (k : TileKey) :
    List.Sublist (removeKey l k) l := by
  induction l with
  | nil => exact List.Sublist.refl _
  | cons p rest ih =>
    by_cases hp : p.1 = k
    · simp only [removeKey, if_pos hp]
      exact ih.cons p
    · simp only [removeKey, if_neg hp]
      exact ih.cons₂ p

theorem removeKey_eq_of_not_mem {l : List CacheEntry} {k : TileKey}
    (h : k ∉ l.map Prod.fst) : removeKey l k = l := by
  induction l with
  | nil => rfl
  | cons p rest ih =>
    simp only [List.map_cons, List.mem_cons] at h
    push_neg at h
    have hne : ¬ p.1 = k := fun e => h.1 e.symm
    simp only [removeKey, if_neg hne]
    rw [ih h.2]

theorem not_mem_removeKey_map (l : List CacheEntry) (k : TileKey) :
    k ∉ (removeKey l k).map Prod.fst := by
  induction l with
  | nil => simp [removeKey]
  | cons p rest ih =>
    by_cases hp : p.1 = k
    · simp only [removeKey, if_pos hp]
      exact ih
    · simp only [removeKey, if_neg hp, List.map_cons, List.mem_cons]
      rintro (e | hm)
      · exact hp e.symm
      · exact ih hm

theorem lookupList_removeKey_of_ne {l : List CacheEntry} {k k' : TileKey}
    (h : k' ≠ k) : lookupList (removeKey l k) k' = lookupList l k' := by
  induction l with
  | nil => rfl
  | cons p rest ih =>
    by_cases hp : p.1 = k
    · have : ¬ p.1 = k' := fun e => h (e.symm.trans hp)
      simp only [removeKey, if_pos hp, lookupList, if_neg this]
      exact ih
    · by_cases hq : p.1 = k'
      · simp only [removeKey, if_neg hp, lookupList, if_pos hq]
      · simp only [removeKey, if_neg hp, lookupList, if_neg hq]
        exact ih

theorem countLevel_removeKey {l : List CacheEntry} {k : TileKey}
    (hn : NodupKeys l) (hm : k ∈ l.map Prod.fst) (lvl : ℤ) :
    countLevel (removeKey l k) lvl + (if keyLevel k = lvl then 1 else 0) =
      countLevel l lvl := by
  induction l with
  | nil => simp at hm
  | cons p rest ih =>
    have hn' : NodupKeys rest := by
      simpa [NodupKeys] using (List.nodup_cons.mp hn).2
    by_cases hp : p.1 = k
    · have hnot : k ∉ rest.map Prod.fst := by
        have := (List.nodup_cons.mp hn).1
        rwa [hp] at this
      have e1 : removeKey (p :: rest) k = rest := by
        simp only [removeKey, if_pos hp]
        exact removeKey_eq_of_not_mem hnot
      rw [e1]
      show countLevel rest lvl + (if keyLevel k = lvl then 1 else 0) =
        (if keyLevel p.1 = lvl then 1 else 0) + countLevel rest lvl
      rw [hp]
      omega
    · have hm' : k ∈ rest.map Prod.fst := by
        rcases List.mem_cons.mp hm with e | h2
        · exact absurd e.symm hp
        · exact h2
      simp only [removeKey, if_neg hp, countLevel]
      have := ih hn' hm'
      omega

theorem lookupList_moveToEnd (l : List CacheEntry) (k k' : TileKey) :
    lookupList (moveToEnd l k) k' = lookupList l k' := by
  unfold moveToEnd
  cases h : lookupList l k with
  | none => rfl
  | some v =>
    by_cases e : k' = k
    · subst e
      rw [lookupList_append_of_none
        ((lookupList_eq_none_iff _ _).mpr (not_mem_removeKey_map l k')) _]
      simp [lookupList, h]
    · cases h2 : lookupList (removeKey l k) k' with
      | none =>
        have h3 : lookupList l k' = none := by
          rw [← lookupList_removeKey_of_ne e]
          exact h2
        rw [lookupList_append_of_none h2, h3]
        show (if k = k' then some v else lookupList [] k') = none
        rw [if_neg (fun hh => e hh.symm)]
        rfl
      | some w =>
        rw [lookupList_append_of_some h2]
        rw [lookupList_removeKey_of_ne e] at h2
        exact h2.symm

theorem countLevel_moveToEnd {l : List CacheEntry} (hn : NodupKeys l)
    (k : TileKey) (lvl : ℤ) :
    countLevel (moveToEnd l k) lvl = countLevel l lvl := by
  unfold moveToEnd
  cases h : lookupList l k with
  | none => rfl
  | some v =>
    rw [countLevel_append]
    have hone : countLevel [(k, v)] lvl = if keyLevel k = lvl then 1 else 0 := by
      simp [countLevel]
    rw [hone]
    exact countLevel_removeKey hn (lookupList_mem_of_some h) lvl

theorem nodupKeys_moveToEnd {l : List CacheEntry} (hn : NodupKeys l)
    (k : TileKey) : NodupKeys (moveToEnd l k) := by
  unfold moveToEnd
  cases h : lookupList l k with
  | none => exact hn
  | some v =>
    have hsub : List.Sublist ((removeKey l k).map Prod.fst) (l.map Prod.fst) :=
      (removeKey_sublist l k).map Prod.fst
    have hnr : ((removeKey l k).map Prod.fst).Nodup := hn.sublist hsub
    unfold NodupKeys
    rw [List.map_append]
    rw [List.nodup_append]
    refine ⟨hnr, List.nodup_singleton _, ?_⟩
    intro a ha hb
    simp only [List.map_cons, List.map_nil, List.mem_singleton] at hb
    subst hb
    exact not_mem_removeKey_map l a ha

theorem removeFirstOfLevel_sublist (l : List CacheEntry) (lvl : ℤ) :
    List.Sublist (removeFirstOfLevel l lvl) l := by
  induction l with
  | nil => exact List.Sublist.refl _
  | cons p rest ih =>
    by_cases hp : keyLevel p.1 = lvl
    · simp only [removeFirstOfLevel, if_pos hp]
      exact (List.Sublist.refl rest).cons p
    · simp only [removeFirstOfLevel, if_neg hp]
      exact ih.cons₂ p

theorem countLevel_removeFirstOfLevel_pos {l : List CacheEntry} {lvl : ℤ}
    (h : 0 < countLevel l lvl) :
    countLevel (removeFirstOfLevel l lvl) lvl + 1 = countLevel l lvl := by
  induction l with
  | nil => simp [countLevel] at h
  | cons p rest ih =>
    by_cases hp : keyLevel p.1 = lvl
    · have e1 : removeFirstOfLevel (p :: rest) lvl = rest := by
        simp only [removeFirstOfLevel, if_pos hp]
      rw [e1]
      show countLevel rest lvl + 1 =
        (if keyLevel p.1 = lvl then 1 else 0) + countLevel rest lvl
      rw [if_pos hp]
      omega
    · simp only [countLevel, if_neg hp] at h
      simp only [removeFirstOfLevel, if_neg hp, countLevel, if_neg hp]
      have := ih (by omega)
      omega

theorem countLevel_removeFirstOfLevel_ne {l : List CacheEntry} {lvl lvl' : ℤ}
    (h : lvl' ≠ lvl) :
    countLevel (removeFirstOfLevel l lvl) lvl' = countLevel l lvl' := by
  induction l with
  | nil => rfl
  | cons p rest ih =>
    by_cases hp : keyLevel p.1 = lvl
    · have : ¬ keyLevel p.1 = lvl' := fun e => h (e.symm.trans hp)
      simp only [removeFirstOfLevel, if_pos hp, countLevel, if_neg this]
      omega
    · simp only [removeFirstOfLevel, if_neg hp, countLevel, ih]

theorem mem_removeFirstOfLevel_of_ne {l : List CacheEntry} {lvl : ℤ}
    {p : CacheEntry} (hp : p ∈ l) (hne : keyLevel p.1 ≠ lvl) :
    p ∈ removeFirstOfLevel l lvl := by
  induction l with
  | nil => simp at hp
  | cons q rest ih =>
    by_cases hq : keyLevel q.1 = lvl
    · simp only [removeFirstOfLevel, if_pos hq]
      rcases List.mem_cons.mp hp with e | hm
      · exact absurd (e ▸ hne) (fun hc => hc hq)
      · exact hm
    · simp only [removeFirstOfLevel, if_neg hq, List.mem_cons]
      rcases List.mem_cons.mp hp with e | hm
      · exact Or.inl e
      · exact Or.inr (ih hm)

theorem any_level_iff_pos (l : List CacheEntry) (lvl : ℤ) :
    (l.any fun p => keyLevel p.1 = lvl) = true ↔ 0 < countLevel l lvl := by
  induction l with
  | nil => simp [countLevel]
  | cons p rest ih =>
    by_cases hp : keyLevel p.1 = lvl
    · simp [countLevel, hp]
    · simp only [List.any_cons, countLevel, if_neg hp, Bool.or_eq_true,
        decide_eq_true_eq]
      constructor
      · rintro (e | h)
        · exact absurd e hp
        · simpa using ih.mp h
      · intro h
        exact Or.inr (ih.mpr (by omega))

theorem nodupKeys_append_fresh {l : List CacheEntry} {k : TileKey} {v : ℕ}
    (hn : NodupKeys l) (hk : k ∉ l.map Prod.fst) :
    NodupKeys (l ++ [(k, v)]) := by
  unfold NodupKeys
  rw [List.map_append, List.nodup_append]
  refine ⟨hn, List.nodup_singleton _, ?_⟩
  intro a ha hb
  simp only [List.map_cons, List.map_nil, List.mem_singleton] at hb
  subst hb
  exact hk ha

/-! ### Cache invariant preservation -/

theorem cacheInv_init (q : ℤ → ℤ) (hq : ∀ lvl, 0 ≤ q lvl) :
    CacheInv (TileCache.init q) := by
  refine ⟨?_, ?_, ?_⟩
  · simp [NodupKeys, TileCache.init]
  · intro lvl
    simp [TileCache.init, countLevel]
  · intro lvl
    simpa [TileCache.init, countLevel] using hq lvl

theorem get_max (c : TileCache) (k : TileKey) :
    ((c.get k).2).max_tiles_per_level = c.max_tiles_per_level := by
  unfold TileCache.get
  cases lookupList c.cache k <;> rfl

theorem evict_max (c : TileCache) (lvl : ℤ) :
    (c.evict_oldest_tile_for_level lvl).max_tiles_per_level =
      c.max_tiles_per_level := by
  unfold TileCache.evict_oldest_tile_for_level
  split <;> rfl

theorem put_max (c : TileCache) (k : TileKey) (v : ℕ) :
    (c.put k v).max_tiles_per_level = c.max_tiles_per_level := by
  unfold TileCache.put TileCache.insertNew
  split_ifs
  · rfl
  · exact evict_max c (keyLevel k)
  · rfl

theorem evict_cache_sublist (c : TileCache) (lvl : ℤ) :
    List.Sublist (c.evict_oldest_tile_for_level lvl).cache c.cache := by
  unfold TileCache.evict_oldest_tile_for_level
  split
  · exact removeFirstOfLevel_sublist c.cache lvl
  · exact List.Sublist.refl _

theorem cacheInv_get {c : TileCache} (h : CacheInv c) (k : TileKey) :
    CacheInv ((c.get k).2) := by
  obtain ⟨hn, hc, hle⟩ := h
  unfold TileCache.get
  cases lookupList c.cache k with
  | none => exact ⟨hn, hc, hle⟩
  | some v =>
    refine ⟨?_, ?_, ?_⟩
    · show NodupKeys (moveToEnd c.cache k)
      exact nodupKeys_moveToEnd hn k
    · intro lvl
      show c.level_counts lvl = (countLevel (moveToEnd c.cache k) lvl : ℤ)
      rw [countLevel_moveToEnd hn]
      exact hc lvl
    · intro lvl
      show (countLevel (moveToEnd c.cache k) lvl : ℤ) ≤ c.max_tiles_per_level lvl
      rw [countLevel_moveToEnd hn]
      exact hle lvl

theorem cacheInv_evict {c : TileCache} {lvl : ℤ} (h : CacheInv c)
    (hpos : 0 < countLevel c.cache lvl) :
    CacheInv (c.evict_oldest_tile_for_level lvl) ∧
      countLevel (c.evict_oldest_tile_for_level lvl).cache lvl + 1 =
        countLevel c.cache lvl ∧
      (c.evict_oldest_tile_for_level lvl).max_tiles_per_level =
        c.max_tiles_per_level := by
  obtain ⟨hn, hc, hle⟩ := h
  unfold TileCache.evict_oldest_tile_for_level
  rw [if_pos ((any_level_iff_pos c.cache lvl).mpr hpos)]
  refine ⟨⟨?_, ?_, ?_⟩, ?_, rfl⟩
  · show NodupKeys (removeFirstOfLevel c.cache lvl)
    exact hn.sublist ((removeFirstOfLevel_sublist c.cache lvl).map Prod.fst)
  · intro l'
    show (if l' = lvl then c.level_counts l' - 1 else c.level_counts l') =
      (countLevel (removeFirstOfLevel c.cache lvl) l' : ℤ)
    by_cases e : l' = lvl
    · rw [if_pos e, e]
      have h1 := hc lvl
      have h2 := countLevel_removeFirstOfLevel_pos hpos
      omega
    · rw [if_neg e, countLevel_removeFirstOfLevel_ne e]
      exact hc l'
  · intro l'
    show (countLevel (removeFirstOfLevel c.cache lvl) l' : ℤ) ≤
      c.max_tiles_per_level l'
    by_cases e : l' = lvl
    · subst e
      have h2 := countLevel_removeFirstOfLevel_pos hpos
      have h3 := hle l'
      omega
    · rw [countLevel_removeFirstOfLevel_ne e]
      exact hle l'
  · exact countLevel_removeFirstOfLevel_pos hpos

theorem cacheInv_insertNew {c : TileCache} {k : TileKey} (v : ℕ)
    (h : CacheInv c) (hk : k ∉ c.cache.map Prod.fst)
    (hroom : (countLevel c.cache (keyLevel k) : ℤ) + 1 ≤
      c.max_tiles_per_level (keyLevel k)) :
    CacheInv (c.insertNew k v) := by
  obtain ⟨hn, hc, hle⟩ := h
  have hcount : ∀ lvl, countLevel (c.cache ++ [(k, v)]) lvl =
      countLevel c.cache lvl + (if keyLevel k = lvl then 1 else 0) := by
    intro lvl
    rw [countLevel_append]
    simp [countLevel]
  refine ⟨?_, ?_, ?_⟩
  · exact nodupKeys_append_fresh hn hk
  · intro lvl
    show (if lvl = keyLevel k then c.level_counts lvl + 1 else c.level_counts lvl) =
      (countLevel (c.cache ++ [(k, v)]) lvl : ℤ)
    rw [hcount lvl]
    have h1 := hc lvl
    by_cases e : lvl = keyLevel k
    · rw [if_pos e, if_pos e.symm]
      push_cast
      omega
    · rw [if_neg e, if_neg (fun hh => e hh.symm)]
      push_cast
      omega
  · intro lvl
    show (countLevel (c.cache ++ [(k, v)]) lvl : ℤ) ≤ c.max_tiles_per_level lvl
    rw [hcount lvl]
    by_cases e : keyLevel k = lvl
    · subst e
      rw [if_pos rfl]
      push_cast
      omega
    · rw [if_neg e]
      have h2 := hle lvl
      push_cast
      omega

theorem cacheInv_put {c : TileCache} (k : TileKey) (v : ℕ) (h : CacheInv c)
    (hq1 : 1 ≤ c.max_tiles_per_level (keyLevel k)) : CacheInv (c.put k v) := by
  unfold TileCache.put
  by_cases h1 : (lookupList c.cache k).isSome
  · rw [if_pos h1]
    obtain ⟨hn, hc, hle⟩ := h
    refine ⟨?_, ?_, ?_⟩
    · show NodupKeys (moveToEnd c.cache k)
      exact nodupKeys_moveToEnd hn k
    · intro lvl
      show c.level_counts lvl = (countLevel (moveToEnd c.cache k) lvl : ℤ)
      rw [countLevel_moveToEnd hn]
      exact hc lvl
    · intro lvl
      show (countLevel (moveToEnd c.cache k) lvl : ℤ) ≤ c.max_tiles_per_level lvl
      rw [countLevel_moveToEnd hn]
      exact hle lvl
  · rw [if_neg h1]
    have hnone : lookupList c.cache k = none := Option.not_isSome_iff_eq_none.mp h1
    have hkmem : k ∉ c.cache.map Prod.fst := (lookupList_eq_none_iff _ _).mp hnone
    by_cases h2 : c.level_counts (keyLevel k) ≥ c.max_tiles_per_level (keyLevel k)
    · rw [if_pos h2]
      have hcnt := h.2.1 (keyLevel k)
      have hler := h.2.2 (keyLevel k)
      have hpos : 0 < countLevel c.cache (keyLevel k) := by omega
      obtain ⟨hinv', hcnt', hmax'⟩ := cacheInv_evict h hpos
      apply cacheInv_insertNew v hinv'
      · intro hmem
        exact hkmem (((evict_cache_sublist c (keyLevel k)).map Prod.fst).subset hmem)
      · rw [hmax']
        omega
    · rw [if_neg h2]
      have hcnt := h.2.1 (keyLevel k)
      apply cacheInv_insertNew v h hkmem
      omega

theorem cacheInv_applyOp {c : TileCache} (op : CacheOp) (h : CacheInv c)
    (hq : ∀ lvl, 1 ≤ c.max_tiles_per_level lvl) :
    CacheInv (c.applyOp op) ∧
      (c.applyOp op).max_tiles_per_level = c.max_tiles_per_level := by
  cases op with
  | put k v => exact ⟨cacheInv_put k v h (hq (keyLevel k)), put_max c k v⟩
  | get k => exact ⟨cacheInv_get h k, get_max c k⟩

theorem cacheInv_applyOps (ops : List CacheOp) (c : TileCache) (h : CacheInv c)
    (hq : ∀ lvl, 1 ≤ c.max_tiles_per_level lvl) :
    CacheInv (c.applyOps ops) ∧
      (c.applyOps ops).max_tiles_per_level = c.max_tiles_per_level := by
  induction ops generalizing c with
  | nil => exact ⟨h, rfl⟩
  | cons op rest ih =>
    obtain ⟨h1, h2⟩ := cacheInv_applyOp op h hq
    have hq' : ∀ lvl, 1 ≤ (c.applyOp op).max_tiles_per_level lvl := by
      rw [h2]
      exact hq
    obtain ⟨h3, h4⟩ := ih (c.applyOp op) h1 hq'
    exact ⟨h3, h4.trans h2⟩

theorem defaultQuota_ge_one (lvl : ℤ) : 1 ≤ defaultQuota lvl := by
  unfold defaultQuota
  split_ifs <;> norm_num

/-- Claim C1: for every sequence of `TileCache.put` and `TileCache.get`
operations starting from an empty cache with the default quotas, the number
of cache entries on any level `L` never exceeds that level's quota, which
is 500 for level 0, 800 for level 1, 1200 for level 2 and 2000 for every
level at or above 3. -/
theorem claim1_quota_invariant :
    (∀ (ops : List CacheOp) (lvl : ℤ),
      (countLevel ((TileCache.init defaultQuota).applyOps ops).cache lvl : ℤ) ≤
        defaultQuota lvl) ∧
    defaultQuota 0 = 500 ∧ defaultQuota 1 = 800 ∧ defaultQuota 2 = 1200 ∧
    (∀ lvl : ℤ, 3 ≤ lvl → defaultQuota lvl = 2000) := by
  constructor
  · intro ops lvl
    have h0 : CacheInv (TileCache.init defaultQuota) :=
      cacheInv_init _ (fun l => le_trans (by norm_num) (defaultQuota_ge_one l))
    obtain ⟨⟨hn, hc, hle⟩, hmax⟩ :=
      cacheInv_applyOps ops _ h0 (fun l => defaultQuota_ge_one l)
    have h1 := hle lvl
    rw [hmax] at h1
    exact h1
  · refine ⟨rfl, rfl, rfl, ?_⟩
    intro lvl h3
    unfold defaultQuota
    rw [if_neg (by omega), if_neg (by omega), if_neg (by omega)]

/-- Witness for C1: the invariant applied to a concrete trace and level,
and the quota at the concrete level 7. -/
theorem claim1_quota_invariant_witness :
    (countLevel ((TileCache.init defaultQuota).applyOps
        [CacheOp.put (0, 0, 0) 5, CacheOp.get (0, 0, 0)]).cache 0 : ℤ) ≤
      defaultQuota 0 ∧ defaultQuota 7 = 2000 :=
  ⟨claim1_quota_invariant.1 [CacheOp.put (0, 0, 0) 5, CacheOp.get (0, 0, 0)] 0,
   claim1_quota_invariant.2.2.2.2 7 (by decide)⟩

/-! ### LRU insertion lemmas (claim C3) -/

theorem putKeys_append_fresh {L : ℤ} :
    ∀ (ks : List TileKey) (c : TileCache),
      (∀ k ∈ ks, keyLevel k = L) →
      (∀ k ∈ ks, lookupList c.cache k = none) →
      ks.Nodup →
      (∀ lvl, c.level_counts lvl = (countLevel c.cache lvl : ℤ)) →
      (countLevel c.cache L : ℤ) + ks.length ≤ c.max_tiles_per_level L →
      (c.putKeys ks).cache = c.cache ++ ks.map (fun k => (k, 0)) ∧
        (∀ lvl, (c.putKeys ks).level_counts lvl =
          (countLevel (c.putKeys ks).cache lvl : ℤ)) ∧
        (c.putKeys ks).max_tiles_per_level = c.max_tiles_per_level := by
  intro ks
  induction ks with
  | nil =>
    intro c _ _ _ hcnt _
    exact ⟨by simp [TileCache.putKeys], hcnt, rfl⟩
  | cons k rest ih =>
    intro c hlev hfresh hnd hcnt hroom
    have hkfresh : lookupList c.cache k = none := hfresh k (List.mem_cons_self k rest)
    have hkmem : k ∉ c.cache.map Prod.fst := (lookupList_eq_none_iff _ _).mp hkfresh
    have hkL : keyLevel k = L := hlev k (List.mem_cons_self k rest)
    have hnotSome : ¬ (lookupList c.cache k).isSome := by
      rw [hkfresh]
      simp
    have hguard : ¬ c.level_counts (keyLevel k) ≥ c.max_tiles_per_level (keyLevel k) := by
      rw [hkL, hcnt L]
      simp only [List.length_cons] at hroom
      push_cast at hroom
      omega
    have hput : c.put k 0 = c.insertNew k 0 := by
      unfold TileCache.put
      rw [if_neg hnotSome, if_neg hguard]
    have hstep : (c.putKeys (k :: rest)) = (c.insertNew k 0).putKeys rest := by
      show (c.put k 0).putKeys rest = _
      rw [hput]
    rw [hstep]
    have hcount1 : ∀ lvl, countLevel (c.insertNew k 0).cache lvl =
        countLevel c.cache lvl + (if keyLevel k = lvl then 1 else 0) := by
      intro lvl
      show countLevel (c.cache ++ [(k, 0)]) lvl = _
      rw [countLevel_append]
      simp [countLevel]
    have hc1 : ∀ lvl, (c.insertNew k 0).level_counts lvl =
        (countLevel (c.insertNew k 0).cache lvl : ℤ) := by
      intro lvl
      show (if lvl = keyLevel k then c.level_counts lvl + 1 else c.level_counts lvl) = _
      rw [hcount1 lvl]
      have h1 := hcnt lvl
      by_cases e : lvl = keyLevel k
      · rw [if_pos e, if_pos e.symm]
        push_cast
        omega
      · rw [if_neg e, if_neg (fun hh => e hh.symm)]
        push_cast
        omega
    obtain ⟨ha, hb, hmax⟩ := ih (c.insertNew k 0)
      (fun k' hk' => hlev k' (List.mem_cons_of_mem k hk'))
      (by
        intro k' hk'
        have hne : k' ≠ k := by
          intro e
          subst e
          exact (List.nodup_cons.mp hnd).1 hk'
        show lookupList (c.cache ++ [(k, 0)]) k' = none
        rw [lookupList_append_of_none (hfresh k' (List.mem_cons_of_mem k hk'))]
        show (if k = k' then some 0 else lookupList [] k') = none
        rw [if_neg (fun hh => hne hh.symm)]
        rfl)
      (List.nodup_cons.mp hnd).2
      hc1
      (by
        show (countLevel (c.insertNew k 0).cache L : ℤ) + rest.length ≤
          c.max_tiles_per_level L
        rw [hcount1 L, hkL, if_pos rfl]
        simp only [List.length_cons] at hroom
        push_cast at hroom ⊢
        omega)
    refine ⟨?_, hb, hmax⟩
    rw [ha]
    show (c.cache ++ [(k, 0)]) ++ rest.map (fun k => (k, 0)) = _
    rw [List.append_assoc]
    rfl

theorem removeFirstOfLevel_all {l : List CacheEntry} {lvl : ℤ}
    (h : ∀ p ∈ l, keyLevel p.1 = lvl) (hne : l ≠ []) :
    removeFirstOfLevel l lvl = l.tail := by
  cases l with
  | nil => exact absurd rfl hne
  | cons p rest =>
    have hp : keyLevel p.1 = lvl := h p (List.mem_cons_self p rest)
    simp only [removeFirstOfLevel, if_pos hp, List.tail_cons]

theorem countLevel_all {l : List CacheEntry} {lvl : ℤ}
    (h : ∀ p ∈ l, keyLevel p.1 = lvl) : countLevel l lvl = l.length := by
  induction l with
  | nil => rfl
  | cons p rest ih =>
    have hp : keyLevel p.1 = lvl := h p (List.mem_cons_self p rest)
    show (if keyLevel p.1 = lvl then 1 else 0) + countLevel rest lvl = rest.length + 1
    rw [if_pos hp, ih (fun q hq => h q (List.mem_cons_of_mem p hq))]
    omega

theorem evict_keeps_other_levels {c : TileCache} {lvl : ℤ} {p : CacheEntry}
    (hp : p ∈ c.cache) (hne : keyLevel p.1 ≠ lvl) :
    p ∈ (c.evict_oldest_tile_for_level lvl).cache := by
  unfold TileCache.evict_oldest_tile_for_level
  split
  · exact mem_removeFirstOfLevel_of_ne hp hne
  · exact hp

theorem tail_append_singleton {α : Type} {l : List α} (x : α) (h : l ≠ []) :
    (l ++ [x]).tail = l.tail ++ [x] := by
  cases l with
  | nil => exact absurd rfl h
  | cons a t => rfl

theorem lru_insert_evicts_first (q : ℤ → ℤ) (L : ℤ) (ks : List TileKey)
    (hq : (1 : ℤ) ≤ q L) (hnd : ks.Nodup) (hlev : ∀ k ∈ ks, keyLevel k = L)
    (hlen : (ks.length : ℤ) = q L + 1) :
    ((TileCache.init q).putKeys ks).cache.map Prod.fst = ks.tail := by
  rcases List.eq_nil_or_concat ks with rfl | ⟨l1, x, rfl⟩
  · simp at hlen
    omega
  · simp only [List.concat_eq_append] at hnd hlev hlen ⊢
    have hsplit : (TileCache.init q).putKeys (l1 ++ [x]) =
        (((TileCache.init q).putKeys l1).put x 0) := by
      unfold TileCache.putKeys
      rw [List.foldl_append]
      rfl
    have hnd1 : l1.Nodup := (List.nodup_append.mp hnd).1
    have hxnot : x ∉ l1 := by
      intro hx
      exact (List.nodup_append.mp hnd).2.2 hx (List.mem_singleton_self x)
    have hlen1 : (l1.length : ℤ) = q L := by
      simp only [List.length_append, List.length_singleton] at hlen
      push_cast at hlen
      omega
    have hlev1 : ∀ k ∈ l1, keyLevel k = L := fun k hk =>
      hlev k (List.mem_append_left _ hk)
    have hxL : keyLevel x = L :=
      hlev x (List.mem_append_right _ (List.mem_singleton_self x))
    obtain ⟨hcache1, hcnt1, hmax1⟩ := putKeys_append_fresh l1 (TileCache.init q)
      hlev1 (fun k _ => rfl) hnd1 (fun lvl => by simp [TileCache.init, countLevel])
      (by
        show (countLevel (TileCache.init q).cache L : ℤ) + l1.length ≤
          (TileCache.init q).max_tiles_per_level L
        show (countLevel [] L : ℤ) + l1.length ≤ q L
        simp only [countLevel]
        omega)
    set c1 := (TileCache.init q).putKeys l1 with hc1def
    have hcache1' : c1.cache = l1.map (fun k => (k, 0)) := by
      rw [hcache1]
      rfl
    have hlevc1 : ∀ p ∈ c1.cache, keyLevel p.1 = L := by
      intro p hp
      rw [hcache1'] at hp
      obtain ⟨k, hk, rfl⟩ := List.mem_map.mp hp
      exact hlev1 k hk
    have hl1ne : l1 ≠ [] := by
      intro e
      rw [e] at hlen1
      simp at hlen1
      omega
    have hcountL : countLevel c1.cache L = l1.length := by
      rw [countLevel_all hlevc1, hcache1', List.length_map]
    have hxnomem : x ∉ c1.cache.map Prod.fst := by
      rw [hcache1', List.map_map]
      intro hx
      apply hxnot
      simpa using hx
    have hlookupx : lookupList c1.cache x = none :=
      (lookupList_eq_none_iff _ _).mpr hxnomem
    have hnotsome : ¬ (lookupList c1.cache x).isSome := by
      rw [hlookupx]
      simp
    have hguard : c1.level_counts (keyLevel x) ≥ c1.max_tiles_per_level (keyLevel x) := by
      rw [hxL, hcnt1 L, hmax1]
      show ((countLevel c1.cache L : ℤ)) ≥ q L
      rw [hcountL]
      omega
    have hpos : 0 < countLevel c1.cache L := by
      rw [hcountL]
      have : (0 : ℤ) < l1.length := by omega
      exact_mod_cast this
    rw [hsplit]
    unfold TileCache.put
    rw [if_neg hnotsome, if_pos hguard, hxL]
    show ((c1.evict_oldest_tile_for_level L).cache ++ [(x, 0)]).map Prod.fst = _
    unfold TileCache.evict_oldest_tile_for_level
    rw [if_pos ((any_level_iff_pos c1.cache L).mpr hpos)]
    show (removeFirstOfLevel c1.cache L ++ [(x, 0)]).map Prod.fst = _
    rw [removeFirstOfLevel_all hlevc1 (by
      rw [hcache1']
      intro e
      exact hl1ne (List.map_eq_nil_iff.mp e))]
    rw [List.map_append, hcache1']
    rw [tail_append_singleton x hl1ne]
    have : ((l1.map fun k => (k, 0)).tail).map Prod.fst = l1.tail := by
      cases l1 with
      | nil => rfl
      | cons a t =>
        rw [List.map_cons, List.tail_cons, List.tail_cons, List.map_map]
        show List.map (fun k : TileKey => k) t = t
        exact List.map_id t
    rw [this]
    rfl

/-- Claim C3: with quota 2 on level 0, the trace `put k1; put k2; get k1;
put k3` on three distinct level-0 keys evicts exactly `k2`, leaving `k1`
and `k3` (in that recency order); in general, inserting `quota(L) + 1`
distinct level-`L` keys into an empty cache with no intervening `get`
evicts exactly the first-inserted key, leaving precisely the remaining
keys in insertion order; and eviction never removes an entry of a level
other than the one being evicted. -/
theorem claim3_lru_eviction :
    (((((TileCache.init (fun lvl => if lvl = 0 then 2 else defaultQuota lvl)).put
        (0, 0, 0) 11).put (1, 0, 0) 22).get (0, 0, 0)).2.put (2, 0, 0) 33).cache.map
        Prod.fst = [(0, 0, 0), (2, 0, 0)] ∧
    (∀ (q : ℤ → ℤ) (L : ℤ) (ks : List TileKey),
      (1 : ℤ) ≤ q L → ks.Nodup → (∀ k ∈ ks, keyLevel k = L) →
      (ks.length : ℤ) = q L + 1 →
      ((TileCache.init q).putKeys ks).cache.map Prod.fst = ks.tail) ∧
    (∀ (c : TileCache) (lvl : ℤ) (p : CacheEntry),
      p ∈ c.cache → keyLevel p.1 ≠ lvl →
      p ∈ (c.evict_oldest_tile_for_level lvl).cache) := by
  refine ⟨by decide, lru_insert_evicts_first, ?_⟩
  intro c lvl p hp hne
  exact evict_keeps_other_levels hp hne

/-- Witness for C3: the general LRU statement at quota 1 with two concrete
level-0 keys, and the eviction-isolation statement at a concrete cache. -/
theorem claim3_lru_eviction_witness :
    (((TileCache.init (fun _ => (1 : ℤ))).putKeys
        [(0, 0, 0), (1, 0, 0)]).cache.map Prod.fst = [(1, 0, 0)]) ∧
    ((0, 0, 0), 1) ∈ (cacheTwo.evict_oldest_tile_for_level 5).cache :=
  ⟨claim3_lru_eviction.2.1 (fun _ => 1) 0 [(0, 0, 0), (1, 0, 0)]
      (by decide) (by decide) (by decide) (by decide),
   claim3_lru_eviction.2.2 cacheTwo 5 ((0, 0, 0), 1) (by decide) (by decide)⟩

/-! ### Dispatch deduplication (claims C2 and C4) -/

theorem disInv_processKey (m0 : WSITileManager) (st : WSITileManager × List TileKey)
    (k0 : TileKey) (h : DisInv m0 st) : DisInv m0 (processKey st k0) := by
  obtain ⟨m, d⟩ := st
  obtain ⟨hnd, hdl, hgrow, hcache, hfresh⟩ := h
  unfold processKey
  show DisInv m0
    (match (m.cache.get k0).1 with
     | some _ => ({ m with cache := (m.cache.get k0).2 }, d)
     | none =>
       if k0 ∈ m.loading_tiles then ({ m with cache := (m.cache.get k0).2 }, d)
       else ({ m with cache := (m.cache.get k0).2,
                      loading_tiles := m.loading_tiles ++ [k0],
                      workers := m.workers.set m.current_worker_idx
                        (TileLoader.add_task (m.workers.getD m.current_worker_idx []) k0),
                      current_worker_idx := (m.current_worker_idx + 1) % m.workers.length },
             d ++ [k0]))
  unfold TileCache.get
  cases hl : lookupList m.cache.cache k0 with
  | some v =>
    refine ⟨hnd, hdl, hgrow, ?_, hfresh⟩
    intro k
    show lookupList (moveToEnd m.cache.cache k0) k = _
    rw [lookupList_moveToEnd]
    exact hcache k
  | none =>
    by_cases hin : k0 ∈ m.loading_tiles
    · rw [if_pos hin]
      exact ⟨hnd, hdl, hgrow, hcache, hfresh⟩
    · rw [if_neg hin]
      refine ⟨?_, ?_, ?_, hcache, ?_⟩
      · rw [List.nodup_append]
        refine ⟨hnd, List.nodup_singleton k0, ?_⟩
        intro a ha hb
        rw [List.mem_singleton] at hb
        subst hb
        exact hin (hdl a ha)
      · intro k hk
        rcases List.mem_append.mp hk with h1 | h1
        · exact List.mem_append_left _ (hdl k h1)
        · exact List.mem_append_right _ h1
      · intro k hk
        exact List.mem_append_left _ (hgrow k hk)
      · intro k hk
        rcases List.mem_append.mp hk with h1 | h1
        · exact hfresh k h1
        · rw [List.mem_singleton] at h1
          subst h1
          constructor
          · intro hmem
            exact hin (hgrow k hmem)
          · rw [← hcache k]
            exact hl

theorem disInv_foldl (m0 : WSITileManager) (ks : List TileKey)
    (st : WSITileManager × List TileKey) (h : DisInv m0 st) :
    DisInv m0 (ks.foldl processKey st) := by
  induction ks generalizing st with
  | nil => exact h
  | cons k rest ih => exact ih _ (disInv_processKey m0 st k h)

theorem disInv_refl (m0 : WSITileManager) : DisInv m0 (m0, []) := by
  refine ⟨List.nodup_nil, ?_, ?_, fun k => rfl, ?_⟩
  · intro k hk
    simp at hk
  · intro k hk
    exact hk
  · intro k hk
    simp at hk

theorem load_tiles_spec (m : WSITileManager) (sx ex sy ey lvl : ℤ) :
    DisInv m (m.load_tiles_for_view sx ex sy ey lvl) := by
  unfold WSITileManager.load_tiles_for_view
  cases m.slide with
  | none => exact disInv_refl m
  | some s => exact disInv_foldl m _ _ (disInv_refl m)

theorem countKey_append (l1 l2 : List TileKey) (k : TileKey) :
    countKey (l1 ++ l2) k = countKey l1 k + countKey l2 k := by
  induction l1 with
  | nil => simp [countKey]
  | cons a t ih =>
    show (if a = k then 1 else 0) + countKey (t ++ l2) k =
      ((if a = k then 1 else 0) + countKey t k) + countKey l2 k
    rw [ih]
    omega

theorem countKey_eq_zero_of_not_mem {l : List TileKey} {k : TileKey}
    (h : k ∉ l) : countKey l k = 0 := by
  induction l with
  | nil => rfl
  | cons a t ih =>
    have ha : ¬ a = k := fun e => h (e ▸ List.mem_cons_self a t)
    show (if a = k then 1 else 0) + countKey t k = 0
    rw [if_neg ha, ih (fun hm => h (List.mem_cons_of_mem a hm))]

theorem countKey_le_one_of_nodup {l : List TileKey} (h : l.Nodup) (k : TileKey) :
    countKey l k ≤ 1 := by
  induction l with
  | nil => simp [countKey]
  | cons a t ih =>
    obtain ⟨ha, ht⟩ := List.nodup_cons.mp h
    show (if a = k then 1 else 0) + countKey t k ≤ 1
    by_cases e : a = k
    · subst e
      rw [if_pos rfl, countKey_eq_zero_of_not_mem ha]
    · rw [if_neg e]
      have := ih ht
      omega

/-- Claim C2: two successive `load_tiles_for_view` calls with any (in
particular overlapping) footprints and no intervening completion dispatch
every distinct tile key to a worker at most once; every dispatched key was
neither in the in-flight set nor in the cache when the first call started.
The in-flight check-and-mark is the single atomic step `processKey`
modelling the source's `with self.loading_lock:` block. -/
theorem claim2_no_duplicate_dispatch (m : WSITileManager)
    (sx1 ex1 sy1 ey1 l1 sx2 ex2 sy2 ey2 l2 : ℤ) :
    (∀ k : TileKey,
      countKey ((m.load_tiles_for_view sx1 ex1 sy1 ey1 l1).2 ++
        ((m.load_tiles_for_view sx1 ex1 sy1 ey1 l1).1.load_tiles_for_view
          sx2 ex2 sy2 ey2 l2).2) k ≤ 1) ∧
    (∀ k : TileKey,
      k ∈ (m.load_tiles_for_view sx1 ex1 sy1 ey1 l1).2 ++
        ((m.load_tiles_for_view sx1 ex1 sy1 ey1 l1).1.load_tiles_for_view
          sx2 ex2 sy2 ey2 l2).2 →
      k ∉ m.loading_tiles ∧ lookupList m.cache.cache k = none) := by
  obtain ⟨hnd1, hdl1, hgrow1, hcache1, hfresh1⟩ :=
    load_tiles_spec m sx1 ex1 sy1 ey1 l1
  obtain ⟨hnd2, hdl2, hgrow2, hcache2, hfresh2⟩ :=
    load_tiles_spec (m.load_tiles_for_view sx1 ex1 sy1 ey1 l1).1 sx2 ex2 sy2 ey2 l2
  constructor
  · intro k
    rw [countKey_append]
    by_cases h1 : k ∈ (m.load_tiles_for_view sx1 ex1 sy1 ey1 l1).2
    · have hc1 : countKey ((m.load_tiles_for_view sx1 ex1 sy1 ey1 l1).2) k ≤ 1 :=
        countKey_le_one_of_nodup hnd1 k
      have hnot2 : k ∉ ((m.load_tiles_for_view sx1 ex1 sy1 ey1 l1).1.load_tiles_for_view
          sx2 ex2 sy2 ey2 l2).2 := by
        intro h2
        exact (hfresh2 k h2).1 (hdl1 k h1)
      rw [countKey_eq_zero_of_not_mem hnot2]
      omega
    · have hc1 : countKey ((m.load_tiles_for_view sx1 ex1 sy1 ey1 l1).2) k = 0 :=
        countKey_eq_zero_of_not_mem h1
      have hc2 : countKey (((m.load_tiles_for_view sx1 ex1 sy1 ey1 l1).1.load_tiles_for_view
          sx2 ex2 sy2 ey2 l2).2) k ≤ 1 :=
        countKey_le_one_of_nodup hnd2 k
      omega
  · intro k hk
    rcases List.mem_append.mp hk with h1 | h2
    · exact hfresh1 k h1
    · obtain ⟨hload2, hcachemiss2⟩ := hfresh2 k h2
      constructor
      · intro hmem
        exact hload2 (hgrow1 k hmem)
      · rw [← hcache1 k]
        exact hcachemiss2

/-- Witness for C2: a concrete manager, two overlapping footprints and a
concrete dispatched key. -/
theorem claim2_no_duplicate_dispatch_witness :
    (0, 0, 0) ∉ mgr1.loading_tiles ∧
      lookupList mgr1.cache.cache (0, 0, 0) = none :=
  (claim2_no_duplicate_dispatch mgr1 0 2 0 1 0 0 2 0 2 0).2 (0, 0, 0) (by decide)

/-- Counterexample to claim C4: dispatch tile `(0,0,0)`, let its decode
fail, and observe that the key is still in the in-flight set, still absent
from the cache, and that a second `load_tiles_for_view` over the same
footprint dispatches nothing — the claim's new load task never happens. -/
theorem claim4_counterexample :
    ((0, 0, 0) ∈ ((mgr1.load_tiles_for_view 0 1 0 1 0).1.worker_fail_step 0).loading_tiles) ∧
    lookupList ((mgr1.load_tiles_for_view 0 1 0 1 0).1.worker_fail_step 0).cache.cache
      (0, 0, 0) = none ∧
    (((mgr1.load_tiles_for_view 0 1 0 1 0).1.worker_fail_step 0).load_tiles_for_view
      0 1 0 1 0).2 = [] := by
  decide

/-- Claim C4 (amended): when a tile decode fails, the worker pops the task
and emits no completion event, so the cache is unchanged and the failed key
stays absent from it; however the key is NOT removed from the in-flight
set, so a later `load_tiles_for_view` whose footprint covers the tile skips
it and never dispatches a new load task for it. -/
theorem claim4_failed_key_not_redispatched (m : WSITileManager) (i : ℕ) :
    (m.worker_fail_step i).cache = m.cache ∧
    (m.worker_fail_step i).loading_tiles = m.loading_tiles ∧
    (∀ (k : TileKey) (sx ex sy ey lvl : ℤ),
      k ∈ (m.worker_fail_step i).loading_tiles →
      k ∉ ((m.worker_fail_step i).load_tiles_for_view sx ex sy ey lvl).2) := by
  refine ⟨?_, ?_, ?_⟩
  · unfold WSITileManager.worker_fail_step
    cases m.workers.getD i [] <;> rfl
  · unfold WSITileManager.worker_fail_step
    cases m.workers.getD i [] <;> rfl
  · intro k sx ex sy ey lvl hk hdisp
    obtain ⟨_, _, _, _, hfresh⟩ :=
      load_tiles_spec (m.worker_fail_step i) sx ex sy ey lvl
    exact (hfresh k hdisp).1 hk

/-- Witness for the amended C4 at a concrete in-flight key. -/
theorem claim4_failed_key_not_redispatched_witness :
    (0, 0, 0) ∉ ((mgrInflight.worker_fail_step 0).load_tiles_for_view 0 1 0 1 0).2 :=
  (claim4_failed_key_not_redispatched mgrInflight 0).2.2 (0, 0, 0) 0 1 0 1 0 (by decide)

/-! ### Stage table and zoom ladder (claims C5, C6, C7) -/

theorem mkRat_step_eq (n : ℕ) (c : ℤ) :
    mkRat (((n : ℤ) - 1) * c) 3 = ((n : ℚ) - 1) / 3 * (c : ℚ) := by
  rw [Rat.mkRat_eq_div]
  push_cast
  ring

/-- Claim C5: the stage table is a deterministic function of the native
level count `n`: `[0,0,0,0]` for `n = 1`, `[0,0,1,1]` for `n = 2`,
`[0,1,2,2]` for `n = 3`, the evenly spaced rounded table with
`step = (n-1)/3` for every `n ≥ 4`, and in particular `[0,1,3,4]` for
`n = 5`. -/
theorem claim5_stage_table :
    setup_level_stages 1 = [0, 0, 0, 0] ∧
    setup_level_stages 2 = [0, 0, 1, 1] ∧
    setup_level_stages 3 = [0, 1, 2, 2] ∧
    (∀ n : ℕ, 4 ≤ n →
      setup_level_stages n =
        [0, pyRound (((n : ℚ) - 1) / 3), pyRound (((n : ℚ) - 1) / 3 * 2),
         min ((n : ℤ) - 1) (pyRound (((n : ℚ) - 1) / 3 * 3))]) ∧
    setup_level_stages 5 = [0, 1, 3, 4] := by
  refine ⟨by decide, by decide, by decide, ?_, by decide⟩
  intro n hn
  unfold setup_level_stages
  rw [if_neg (by omega), if_neg (by omega), if_neg (by omega), if_pos hn]
  have e1 : mkRat ((n : ℤ) - 1) 3 = ((n : ℚ) - 1) / 3 := by
    rw [Rat.mkRat_eq_div]
    push_cast
    ring
  have e2 := mkRat_step_eq n 2
  have e3 := mkRat_step_eq n 3
  rw [e1, e2, e3]
  norm_num

/-- Witness for C5 at the concrete level count 7. -/
theorem claim5_stage_table_witness :
    setup_level_stages 7 =
      [0, pyRound ((((7 : ℕ) : ℚ) - 1) / 3), pyRound ((((7 : ℕ) : ℚ) - 1) / 3 * 2),
       min (((7 : ℕ) : ℤ) - 1) (pyRound ((((7 : ℕ) : ℚ) - 1) / 3 * 3))] :=
  claim5_stage_table.2.2.2.1 7 (by decide)

/-- Claim C6: every stage table the code builds has exactly 4 entries, and
for every manager whose table has 4 entries `get_stage_level` follows the
fixed threshold ladder: zoom at or above 0.3 selects `stages[0]`, zoom in
`[0.03, 0.3)` selects `stages[1]`, zoom in `[0.004, 0.03)` selects
`stages[2]`, and zoom below 0.004 selects `stages[3]`. -/
theorem claim6_threshold_ladder :
    (∀ n : ℕ, (setup_level_stages n).length = 4) ∧
    (∀ (m : WSITileManager) (zoom : ℚ), m.level_stages.length = 4 →
      (mkRat 3 10 ≤ zoom → m.get_stage_level zoom = m.level_stages.getD 0 0) ∧
      (mkRat 3 100 ≤ zoom → zoom < mkRat 3 10 →
        m.get_stage_level zoom = m.level_stages.getD 1 0) ∧
      (mkRat 1 250 ≤ zoom → zoom < mkRat 3 100 →
        m.get_stage_level zoom = m.level_stages.getD 2 0) ∧
      (zoom < mkRat 1 250 → m.get_stage_level zoom = m.level_stages.getD 3 0)) := by
  constructor
  · intro n
    unfold setup_level_stages
    split_ifs <;> rfl
  · intro m zoom hlen
    have hne : m.level_stages ≠ [] := by
      intro e
      rw [e] at hlen
      simp at hlen
    refine ⟨?_, ?_, ?_, ?_⟩
    · intro h1
      unfold WSITileManager.get_stage_level
      rw [if_neg hne, if_pos h1]
    · intro h1 h2
      unfold WSITileManager.get_stage_level
      rw [if_neg hne, if_neg (not_le.mpr h2), if_pos h1]
    · intro h1 h2
      unfold WSITileManager.get_stage_level
      rw [if_neg hne, if_neg (not_le.mpr (lt_trans h2 (by decide))),
        if_neg (not_le.mpr h2), if_pos h1]
    · intro h1
      unfold WSITileManager.get_stage_level
      rw [if_neg hne, if_neg (not_le.mpr (lt_trans h1 (by decide))),
        if_neg (not_le.mpr (lt_trans h1 (by decide))), if_neg (not_le.mpr h1)]

/-- Witness for C6 on the 4-level slide at zoom one half. -/
theorem claim6_threshold_ladder_witness :
    mgr4.get_stage_level (mkRat 1 2) = mgr4.level_stages.getD 0 0 :=
  (claim6_threshold_ladder.2 mgr4 (mkRat 1 2) (by decide)).1 (by decide)

/-- Counterexample to claim C7: on the 4-level slide (stage table
`[0,1,2,3]`), zoom 0.01 lands in the `[0.004, 0.03)` band, so
`get_stage_level` returns the level-2 stage value 2, not the value stored
in `stages[3]` (which is 3) as the claim asserts. -/
theorem claim7_counterexample :
    mgr4.get_stage_level (mkRat 1 100) = 2 ∧
    mgr4.level_stages.getD 3 0 = 3 ∧
    mgr4.get_stage_level (mkRat 1 100) ≠ mgr4.level_stages.getD 3 0 := by
  decide

/-- Claim C7 (amended): for the 4-level slide the stage table is
`[0,1,2,3]`; `get_stage_level 0.5` returns stage level 0 and
`get_stage_level 0.01` returns the mapped level-2 stage `stages[2] = 2`;
the level-3 stage `stages[3]` is only returned for zoom below 0.004, for
example at zoom 0.002. -/
theorem claim7_stage_mapping :
    mgr4.level_stages = [0, 1, 2, 3] ∧
    mgr4.get_stage_level (mkRat 1 2) = 0 ∧
    mgr4.get_stage_level (mkRat 1 100) = mgr4.level_stages.getD 2 0 ∧
    mgr4.get_stage_level (mkRat 1 100) = 2 ∧
    mgr4.get_stage_level (mkRat 1 500) = mgr4.level_stages.getD 3 0 := by
  decide

/-! ### get_tile, load failure, out-of-range levels (claims C8, C9, C10) -/

/-- Counterexample to claim C8: on a cache holding `(0,0,0)` (older) and
`(1,0,0)` (newer), `get_tile (0,0,0)` changes the cache state — the hit is
moved to the most-recently-used end, so the recency order differs. -/
theorem claim8_counterexample :
    (mgrC8.get_tile 0 0 0).2.cache.cache ≠ mgrC8.cache.cache ∧
    (mgrC8.get_tile 0 0 0).2.cache.cache =
      [((1, 0, 0), 2), ((0, 0, 0), 1)] ∧
    mgrC8.cache.cache = [((0, 0, 0), 1), ((1, 0, 0), 2)] := by
  decide

/-- Claim C8 (amended): `get_tile` is a cache lookup that adds no entry,
removes no entry and changes no stored pixmap — every key's lookup result
is preserved and nothing outside the cache is touched; a miss leaves the
manager entirely unchanged, but a hit moves the entry to the
most-recently-used position, so the recency (LRU) order does change. -/
theorem claim8_get_tile_lookup (m : WSITileManager) (tx ty lvl : ℤ) :
    (m.get_tile tx ty lvl).1 = lookupList m.cache.cache (tx, ty, lvl) ∧
    (∀ k : TileKey, lookupList (m.get_tile tx ty lvl).2.cache.cache k =
      lookupList m.cache.cache k) ∧
    (m.get_tile tx ty lvl).2.loading_tiles = m.loading_tiles ∧
    (m.get_tile tx ty lvl).2.workers = m.workers ∧
    (m.get_tile tx ty lvl).2.slide = m.slide ∧
    (m.get_tile tx ty lvl).2.level_stages = m.level_stages ∧
    (lookupList m.cache.cache (tx, ty, lvl) = none →
      (m.get_tile tx ty lvl).2 = m) := by
  unfold WSITileManager.get_tile TileCache.get
  cases hl : lookupList m.cache.cache (tx, ty, lvl) with
  | none =>
    exact ⟨rfl, fun k => rfl, rfl, rfl, rfl, rfl, fun _ => rfl⟩
  | some v =>
    refine ⟨rfl, ?_, rfl, rfl, rfl, rfl, ?_⟩
    · intro k
      show lookupList (moveToEnd m.cache.cache (tx, ty, lvl)) k = _
      exact lookupList_moveToEnd m.cache.cache (tx, ty, lvl) k
    · intro hnone
      exact Option.noConfusion hnone

/-- Witness for the amended C8: a miss leaves the manager unchanged. -/
theorem claim8_get_tile_lookup_witness :
    (mgr1.get_tile 5 5 0).2 = mgr1 :=
  (claim8_get_tile_lookup mgr1 5 5 0).2.2.2.2.2.2 rfl

/-- Counterexample to claim C9: a widget showing a scene item and a tile
item over a live manager calls `load_wsi` on a path whose open fails; the
call returns `False` as claimed, but the widget is NOT left in its
pre-load state — its tile items (and scene contents) have been cleared. -/
theorem claim9_counterexample :
    (wLive.load_wsi none).2 = false ∧
    wLive.tile_items ≠ [] ∧
    (wLive.load_wsi none).1.tile_items = [] ∧
    (wLive.load_wsi none).1.tile_items ≠ wLive.tile_items := by
  decide

/-- Claim C9 (amended): when opening the slide fails, `load_wsi` returns
`False` (the constructor's re-raised exception is caught, so the viewer
does not crash), but the widget does not keep its pre-load state: the
scene contents and the tile-item map are cleared and the previously loaded
tile manager has been closed — all before the open was attempted — and the
`tile_manager` attribute still references that old, now closed (slide
handle released) manager. -/
theorem claim9_load_failure (w : WSIViewWidget) :
    (w.load_wsi none).2 = false ∧
    (w.load_wsi none).1.scene_items = [] ∧
    (w.load_wsi none).1.tile_items = [] ∧
    (w.load_wsi none).1.tile_manager = w.tile_manager.map WSITileManager.close ∧
    (∀ mgr : WSITileManager, (WSITileManager.close mgr).slide = none) :=
  ⟨rfl, rfl, rfl, rfl, fun _ => rfl⟩

/-- Claim C10: for every level index outside `[0, levelCount)` — and for
every level once the slide has been closed — `get_level_dimensions`
returns `(0, 0)` and `get_level_downsample` returns 1; both are total
functions whose out-of-range branch never reads the slide handle's level
lists. -/
theorem claim10_out_of_range_defaults (m : WSITileManager) (level : ℤ) :
    (¬ (0 ≤ level ∧ level < (m.get_level_count : ℤ)) →
      m.get_level_dimensions level = (0, 0) ∧
        m.get_level_downsample level = 1) ∧
    (m.close.get_level_dimensions level = (0, 0) ∧
      m.close.get_level_downsample level = 1) := by
  constructor
  · intro hout
    unfold WSITileManager.get_level_dimensions WSITileManager.get_level_downsample
    cases hs : m.slide with
    | none => exact ⟨rfl, rfl⟩
    | some s =>
      have hcount : m.get_level_count = s.level_count := by
        unfold WSITileManager.get_level_count
        rw [hs]
      rw [hcount] at hout
      constructor
      · show (if 0 ≤ level ∧ level < (s.level_count : ℤ) then
            s.level_dimensions.getD level.toNat (0, 0) else (0, 0)) = (0, 0)
        rw [if_neg hout]
      · show (if 0 ≤ level ∧ level < (s.level_count : ℤ) then
            s.level_downsamples.getD level.toNat 1 else 1) = 1
        rw [if_neg hout]
  · exact ⟨rfl, rfl⟩

/-- Witness for C10 at level `-1` of the open 4-level slide and at level 2
of the closed one. -/
theorem claim10_out_of_range_defaults_witness :
    mgr4.get_level_dimensions (-1) = (0, 0) ∧
      mgr4.close.get_level_downsample 2 = 1 :=
  ⟨((claim10_out_of_range_defaults mgr4 (-1)).1 (by decide)).1,
   (claim10_out_of_range_defaults mgr4 2).2.2⟩

